import Mathlib

/-!
Verification development for the symbolic weighted transition-system
construction of `sym_quant_reactive_synth`
(`src/symbolic_graphs/symbolic_abstraction_add.py` and
`src/symbolic_graphs/graph_search_scripts/frankaworld_main.py`).

States of the Franka abstraction are canonical sorted tuples of interned
predicate ids (`tuple(sorted(...))` in the source); we embed them as
strictly sorted duplicate-free `List ℕ` values.  Symbolic sets of states
(CUDD ADD diagrams that are disjunctions of state cubes) are embedded as
duplicate-free lists of states with union / difference / emptiness in
place of `|`, `& ~` and `isZero()`; the state ↔ cube encoding being a
bijection (proved separately below for `_create_sym_var_map`), this is a
faithful view of the diagram-level operations used by the construction
loop.
-/

namespace SymQuant

/-- Insertion `sIns x l` of `x` into a strictly sorted list, dropping duplicates;
`canon = foldr sIns []` embeds Python's `tuple(sorted(set(...)))`
canonicalisation of predicate-id tuples. -/
def sIns (x : ℕ) : List ℕ → List ℕ
  | [] => [x]
  | y :: ys => if x < y then x :: y :: ys else if x = y then y :: ys else y :: sIns x ys

/-- Canonical sorted duplicate-free form of a predicate-id list. -/
def canon (l : List ℕ) : List ℕ := l.foldr sIns []

theorem mem_sIns {x a : ℕ} {l : List ℕ} : x ∈ sIns a l ↔ x = a ∨ x ∈ l := by
  induction l with
  | nil => simp [sIns]
  | cons y ys ih =>
    by_cases h1 : a < y
    · simp [sIns, h1]
    · by_cases h2 : a = y
      · subst h2
        rw [sIns, if_neg h1, if_pos rfl]
        simp only [List.mem_cons]
        tauto
      · simp [sIns, h1, h2]
        rw [ih]
        tauto

theorem mem_canon {x : ℕ} {l : List ℕ} : x ∈ canon l ↔ x ∈ l := by
  induction l with
  | nil => simp [canon]
  | cons y ys ih =>
    simp only [canon, List.foldr_cons, List.mem_cons]
    rw [mem_sIns]
    rw [canon] at ih
    rw [ih]

/-- Strictly-sorted predicate: the canonical form of state tuples. -/
def SortedLt (l : List ℕ) : Prop := l.Sorted (· < ·)

theorem sortedLt_sIns {a : ℕ} {l : List ℕ} (h : SortedLt l) : SortedLt (sIns a l) := by
  induction l with
  | nil => simp [sIns, SortedLt]
  | cons y ys ih =>
    rcases (List.sorted_cons.mp h) with ⟨hy, hys⟩
    by_cases h1 : a < y
    · simp only [sIns, if_pos h1]
      exact List.sorted_cons.mpr ⟨by
        intro b hb
        rcases List.mem_cons.mp hb with hb | hb
        · subst hb; exact h1
        · exact h1.trans (hy b hb), h⟩
    · by_cases h2 : a = y
      · simpa [sIns, h1, h2] using h
      · have hya : y < a := by omega
        simp only [sIns, if_neg h1, if_neg h2]
        refine List.sorted_cons.mpr ⟨?_, ih hys⟩
        intro b hb
        rcases mem_sIns.mp hb with hb | hb
        · subst hb; exact hya
        · exact hy b hb

theorem sortedLt_canon (l : List ℕ) : SortedLt (canon l) := by
  induction l with
  | nil => simp [canon, SortedLt]
  | cons y ys ih => exact sortedLt_sIns ih

theorem nodup_of_sortedLt {l : List ℕ} (h : SortedLt l) : l.Nodup :=
  h.imp (fun hab => Nat.ne_of_lt hab)

/-- Two strictly sorted lists with the same members are equal. -/
theorem sortedLt_ext {l1 l2 : List ℕ} (h1 : SortedLt l1) (h2 : SortedLt l2)
    (hm : ∀ x, x ∈ l1 ↔ x ∈ l2) : l1 = l2 := by
  induction l1 generalizing l2 with
  | nil =>
    cases l2 with
    | nil => rfl
    | cons b bs => exact absurd ((hm b).mpr (by simp)) (by simp)
  | cons a as ih =>
    cases l2 with
    | nil => exact absurd ((hm a).mp (by simp)) (by simp)
    | cons b bs =>
      rcases List.sorted_cons.mp h1 with ⟨ha, has⟩
      rcases List.sorted_cons.mp h2 with ⟨hb, hbs⟩
      have hab : a = b := by
        rcases List.mem_cons.mp ((hm a).mp (by simp)) with h | h
        · exact h
        · rcases List.mem_cons.mp ((hm b).mpr (by simp)) with h9 | h9
          · exact h9.symm
          · have := hb a h
            have := ha b h9
            omega
      subst hab
      have htails : ∀ x, x ∈ as ↔ x ∈ bs := by
        intro x
        constructor
        · intro hx
          rcases List.mem_cons.mp ((hm x).mp (List.mem_cons_of_mem _ hx)) with h | h
          · subst h; exact absurd (ha x hx) (lt_irrefl x)
          · exact h
        · intro hx
          rcases List.mem_cons.mp ((hm x).mpr (List.mem_cons_of_mem _ hx)) with h | h
          · subst h; exact absurd (hb x hx) (lt_irrefl x)
          · exact h
      rw [ih has hbs htails]

theorem canon_eq_self_of_sortedLt {l : List ℕ} (h : SortedLt l) : canon l = l :=
  sortedLt_ext (sortedLt_canon l) h (fun _ => mem_canon)

/-- Duplicate-free union of two lists, embedding the accumulating `|=` on
disjunction-of-cubes diagrams. -/
def unionS {α : Type} [DecidableEq α] (a b : List α) : List α :=
  b.foldl (fun acc x => if x ∈ acc then acc else acc ++ [x]) a

/-- Set difference of two lists, embedding `dd & ~closed`. -/
def diffS {α : Type} [DecidableEq α] (a b : List α) : List α :=
  a.filter (fun x => decide (x ∉ b))

theorem mem_unionS {α : Type} [DecidableEq α] {a b : List α} {x : α} :
    x ∈ unionS a b ↔ x ∈ a ∨ x ∈ b := by
  induction b generalizing a with
  | nil => simp [unionS]
  | cons y ys ih =>
    simp only [unionS, List.foldl_cons] at *
    by_cases hy : y ∈ a
    · rw [if_pos hy, ih]
      simp only [List.mem_cons]
      constructor
      · rintro (h | h)
        · exact Or.inl h
        · exact Or.inr (Or.inr h)
      · rintro (h | h | h)
        · exact Or.inl h
        · subst h; exact Or.inl hy
        · exact Or.inr h
    · rw [if_neg hy, ih]
      simp only [List.mem_append, List.mem_singleton, List.mem_cons]
      tauto

theorem nodup_unionS {α : Type} [DecidableEq α] {a b : List α} (h : a.Nodup) :
    (unionS a b).Nodup := by
  induction b generalizing a with
  | nil => simpa [unionS]
  | cons y ys ih =>
    simp only [unionS, List.foldl_cons]
    by_cases hy : y ∈ a
    · rw [if_pos hy]; exact ih h
    · rw [if_neg hy]
      exact ih (by simp [List.nodup_append, h, hy])

theorem mem_diffS {α : Type} [DecidableEq α] {a b : List α} {x : α} :
    x ∈ diffS a b ↔ x ∈ a ∧ x ∉ b := by
  simp [diffS]

theorem nodup_diffS {α : Type} [DecidableEq α] {a b : List α} (h : a.Nodup) :
    (diffS a b).Nodup := h.filter _

/-- A state tuple of the Franka abstraction: canonical sorted list of
interned predicate ids. -/
abbrev FState := List ℕ

/-- A grounded Franka operator, as consumed by
`create_weighted_transition_system_franka`.  `name` stands for the full
parameterized action name (the key of the per-action transition-relation
table and of the weight dictionary), `weight` for
`weight_dict[action.name]`, and `isTransferOrRelease`, `boxId`, `dest`
record the results of the string-pattern dispatch
(`'transfer' in action.name or 'release' in action.name`) and of the
regex extraction of the manipulated box id and destination location
performed by `_check_exist_constraint`. -/
structure FrankaOp where
  name : ℕ
  weight : ℕ
  isTransferOrRelease : Bool
  boxId : ℕ
  dest : ℕ
  pre : List ℕ
  addEff : List ℕ
  delEff : List ℕ
deriving DecidableEq, Repr

/-- Problem context of the incremental Franka construction: the grounded
operators (`task.operators`), the box list, the interning function
`onPred b l` for the predicate string `(on b l)` (`pred_int_map`), the
world-configuration classifier (`('on' in pred) or ('gripper' in pred)`
in `get_conds_from_state`), the state-label encoder
(`get_sym_state_lbl_from_tuple`, abstracted to its label id), and the
initial predicate tuple (`task.initial_state`). -/
structure FrankaCtx where
  ops : List FrankaOp
  boxes : List ℕ
  onPred : ℕ → ℕ → ℕ
  isWorldPred : ℕ → Bool
  lblOf : List ℕ → ℕ
  init : List ℕ

/-- World-configuration part of a state
(`get_conds_from_state(..., only_world_conf=True)`). -/
def worldConf (ctx : FrankaCtx) (s : FState) : List ℕ := s.filter ctx.isWorldPred

/-- Robot-configuration part of a state
(`get_conds_from_state(..., only_robot_conf=True)`). -/
def robotConf (ctx : FrankaCtx) (s : FState) : List ℕ :=
  s.filter (fun p => !ctx.isWorldPred p)

/-- The action's required robot configuration, `_necc_robot_conf`. -/
def neccRobot (ctx : FrankaCtx) (a : FrankaOp) : List ℕ := robotConf ctx (canon a.pre)

/-- The `_valid_pre` tuple: the intersection of the current robot configuration with
the action's required robot configuration, joined with the current world
configuration and sorted. -/
def validPre (ctx : FrankaCtx) (a : FrankaOp) (curr : FState) : FState :=
  canon ((robotConf ctx curr).filter (fun p => decide (p ∈ neccRobot ctx a)) ++
    worldConf ctx curr)

/-- Successor tuple: `(valid_pre − del_effects) ∪ add_effects`, sorted. -/
def nextTuple (a : FrankaOp) (v : FState) : FState :=
  canon (v.filter (fun p => decide (p ∉ canon a.delEff)) ++ canon a.addEff)

/-- Embedding of `_check_exist_constraint`: `False` iff some box other than
the manipulated one has an `(on b dest)` predicate in the supplied state
label tuple. -/
def checkExistConstraint (ctx : FrankaCtx) (v : FState) (a : FrankaOp) : Bool :=
  !(((ctx.boxes.erase a.boxId).map (fun b => ctx.onPred b a.dest)).any
    (fun p => decide (p ∈ v)))

/-- An edge recorded by `add_edge_to_action_tr`: action name, current state
tuple, next state tuple, and the weight terminal conjoined with the cubes. -/
abbrev FEdge := ℕ × FState × FState × ℕ

/-- Accumulated mutable construction state: per-action transition edges,
the observation relation `sym_add_state_labels` (state, world-label pairs),
and the trace of states enumerated for expansion. -/
structure BuildAcc where
  rel : List FEdge
  labels : List (FState × ℕ)
  expanded : List FState
deriving DecidableEq, Repr

/-- Final result of the construction loop. -/
structure BuildResult where
  rel : List FEdge
  labels : List (FState × ℕ)
  expanded : List FState
  closed : List FState
deriving DecidableEq, Repr, Inhabited

/-- Processing of one operator at one expanded state: the body of the
`for action in self.task.operators` loop.  Returns the `_valid_pre_list`
contribution and the recorded edge, if any. -/
def procAction (ctx : FrankaCtx) (constr : Bool) (closed : List FState)
    (curr : FState) (a : FrankaOp) : Option FState × Option FEdge :=
  if ((canon a.pre).all fun p => decide (p ∈ curr)) = true then
    if validPre ctx a curr ≠ curr ∧ validPre ctx a curr ∈ closed then (none, none)
    else
      ( if validPre ctx a curr ≠ curr then some (validPre ctx a curr) else none,
        if (if constr && a.isTransferOrRelease then
              checkExistConstraint ctx (validPre ctx a curr) a else true) = true then
          some (a.name, validPre ctx a curr, nextTuple a (validPre ctx a curr), a.weight)
        else none )
  else (none, none)

/-- All operators processed at one state: accumulates `_valid_pre_list`
and the edges added by `add_edge_to_action_tr`. -/
def procState (ctx : FrankaCtx) (constr : Bool) (closed : List FState)
    (curr : FState) : List FState × List FEdge :=
  ctx.ops.foldl
    (fun acc a =>
      let r := procAction ctx constr closed curr a
      (acc.1 ++ r.1.toList, acc.2 ++ r.2.toList))
    ([], [])

/-- World-configuration label pair attached to a state in the observation
relation. -/
def lblPair (ctx : FrankaCtx) (s : FState) : FState × ℕ :=
  (s, ctx.lblOf (worldConf ctx s))

/-- One state expansion inside a layer: process all operators, append the
edges, label the successors and the valid-precondition states, close the
valid-precondition states, and push the successors into the next layer. -/
def stepState (ctx : FrankaCtx) (constr : Bool)
    (st : List FState × BuildAcc × List FState) (curr : FState) :
    List FState × BuildAcc × List FState :=
  let closed := st.1
  let acc := st.2.1
  let nextOpen := st.2.2
  let r := procState ctx constr closed curr
  let vl := r.1
  let es := r.2
  let nexts := es.map (fun e => e.2.2.1)
  ( unionS closed vl,
    { rel := acc.rel ++ es,
      labels := unionS (unionS acc.labels (nexts.map (lblPair ctx)))
        (vl.map (lblPair ctx)),
      expanded := acc.expanded ++ [curr] },
    unionS nextOpen nexts )

/-- Expansion of one whole layer (the `for state in sym_state` loop). -/
def processLayer (ctx : FrankaCtx) (constr : Bool) (states : List FState)
    (closed : List FState) (acc : BuildAcc) :
    List FState × BuildAcc × List FState :=
  states.foldl (stepState ctx constr) (closed, acc, [])

/-- Packaging of the loop's final mutable state. -/
def finishRes (acc : BuildAcc) (closed : List FState) : BuildResult :=
  { rel := acc.rel, labels := acc.labels, expanded := acc.expanded, closed := closed }

/-- The layered fixed-point loop of `create_weighted_transition_system_franka`:
while the current layer's open set is non-empty, subtract the closed set,
close and expand the remainder, and recurse on the next layer's open set.
Structural recursion on an explicit fuel bound replaces the `while`; `none`
means the fuel ran out before the fixed point. -/
def buildLoop (ctx : FrankaCtx) (constr : Bool) :
    ℕ → List FState → List FState → BuildAcc → Option BuildResult
  | 0, _, _, _ => none
  | fuel + 1, currOpen, closed, acc =>
    if currOpen = [] then some (finishRes acc closed)
    else
      let o := diffS currOpen closed
      if o = [] then buildLoop ctx constr fuel [] closed acc
      else
        let closed1 := unionS closed o
        let r := processLayer ctx constr o closed1 acc
        buildLoop ctx constr fuel r.2.2 r.1 r.2.1

/-- Effective existential-constraint flag: disabled when there is a single
box (`if len(boxes) == 1: add_exist_constr = False`). -/
def effConstr (ctx : FrankaCtx) (addExistConstr : Bool) : Bool :=
  if ctx.boxes.length = 1 then false else addExistConstr

/-- Top-level embedding of `create_weighted_transition_system_franka`:
label the initial state, seed layer 0 with the initial state cube, and run
the layered loop. -/
def createWTSFranka (ctx : FrankaCtx) (addExistConstr : Bool) (fuel : ℕ) :
    Option BuildResult :=
  let i := canon ctx.init
  buildLoop ctx (effConstr ctx addExistConstr) fuel [i] []
    { rel := [], labels := [lblPair ctx i], expanded := [] }

/-- Diagram-level membership of a transition in an action's weighted
relation: some recorded term with a non-zero weight terminal covers the
(current, next) cube pair. -/
def SymContains (R : BuildResult) (n : ℕ) (s t : FState) : Prop :=
  ∃ e ∈ R.rel, e.1 = n ∧ e.2.1 = s ∧ e.2.2.1 = t ∧ e.2.2.2 ≠ 0

instance (R : BuildResult) (n : ℕ) (s t : FState) : Decidable (SymContains R n s t) :=
  List.decidableBEx _ _

section LoopLemmas

variable {ctx : FrankaCtx} {constr : Bool}

theorem stepState_fst (st : List FState × BuildAcc × List FState) (curr : FState) :
    (stepState ctx constr st curr).1 = unionS st.1 (procState ctx constr st.1 curr).1 := rfl

theorem stepState_expanded (st : List FState × BuildAcc × List FState) (curr : FState) :
    (stepState ctx constr st curr).2.1.expanded = st.2.1.expanded ++ [curr] := rfl

theorem stepState_rel (st : List FState × BuildAcc × List FState) (curr : FState) :
    (stepState ctx constr st curr).2.1.rel =
      st.2.1.rel ++ (procState ctx constr st.1 curr).2 := rfl

theorem foldl_step_expanded (states : List FState) (st : List FState × BuildAcc × List FState) :
    ((states.foldl (stepState ctx constr) st).2.1).expanded = st.2.1.expanded ++ states := by
  induction states generalizing st with
  | nil => simp
  | cons s ss ih =>
    rw [List.foldl_cons, ih, stepState_expanded]
    simp

theorem foldl_step_closed_mono {x : FState} (states : List FState)
    (st : List FState × BuildAcc × List FState) (hx : x ∈ st.1) :
    x ∈ (states.foldl (stepState ctx constr) st).1 := by
  induction states generalizing st with
  | nil => exact hx
  | cons s ss ih =>
    rw [List.foldl_cons]
    exact ih _ (by rw [stepState_fst]; exact mem_unionS.mpr (Or.inl hx))

theorem foldl_step_rel_mono {e : FEdge} (states : List FState)
    (st : List FState × BuildAcc × List FState) (he : e ∈ st.2.1.rel) :
    e ∈ ((states.foldl (stepState ctx constr) st).2.1).rel := by
  induction states generalizing st with
  | nil => exact he
  | cons s ss ih =>
    rw [List.foldl_cons]
    exact ih _ (by rw [stepState_rel]; exact List.mem_append_left _ he)

theorem foldl_step_nextOpen_nodup (states : List FState)
    (st : List FState × BuildAcc × List FState) (h : st.2.2.Nodup) :
    ((states.foldl (stepState ctx constr) st).2.2).Nodup := by
  induction states generalizing st with
  | nil => exact h
  | cons s ss ih =>
    rw [List.foldl_cons]
    exact ih _ (nodup_unionS h)

theorem processLayer_expanded (states closed : List FState) (acc : BuildAcc) :
    ((processLayer ctx constr states closed acc).2.1).expanded = acc.expanded ++ states :=
  foldl_step_expanded states (closed, acc, [])

theorem processLayer_closed_mono {x : FState} (states closed : List FState) (acc : BuildAcc)
    (hx : x ∈ closed) : x ∈ (processLayer ctx constr states closed acc).1 :=
  foldl_step_closed_mono states (closed, acc, []) hx

theorem processLayer_rel_mono {e : FEdge} (states closed : List FState) (acc : BuildAcc)
    (he : e ∈ acc.rel) : e ∈ ((processLayer ctx constr states closed acc).2.1).rel :=
  foldl_step_rel_mono states (closed, acc, []) he

theorem processLayer_nextOpen_nodup (states closed : List FState) (acc : BuildAcc) :
    ((processLayer ctx constr states closed acc).2.2).Nodup :=
  foldl_step_nextOpen_nodup states (closed, acc, []) List.nodup_nil

theorem buildLoop_succ (fuel : ℕ) (currOpen closed : List FState) (acc : BuildAcc) :
    buildLoop ctx constr (fuel + 1) currOpen closed acc =
      if currOpen = [] then some (finishRes acc closed)
      else if diffS currOpen closed = [] then buildLoop ctx constr fuel [] closed acc
      else
        buildLoop ctx constr fuel
          (processLayer ctx constr (diffS currOpen closed) (unionS closed (diffS currOpen closed)) acc).2.2
          (processLayer ctx constr (diffS currOpen closed) (unionS closed (diffS currOpen closed)) acc).1
          (processLayer ctx constr (diffS currOpen closed) (unionS closed (diffS currOpen closed)) acc).2.1 := rfl

theorem buildLoop_closed_mono {x : FState} :
    ∀ (fuel : ℕ) (currOpen closed : List FState) (acc : BuildAcc) (R : BuildResult),
    buildLoop ctx constr fuel currOpen closed acc = some R → x ∈ closed → x ∈ R.closed := by
  intro fuel
  induction fuel with
  | zero => intro _ _ _ _ h; exact absurd h (by simp [buildLoop])
  | succ n ih =>
    intro currOpen closed acc R h hx
    rw [buildLoop_succ] at h
    by_cases h0 : currOpen = []
    · rw [if_pos h0] at h
      cases h
      exact hx
    · rw [if_neg h0] at h
      by_cases h1 : diffS currOpen closed = []
      · rw [if_pos h1] at h
        exact ih _ _ _ _ h hx
      · rw [if_neg h1] at h
        exact ih _ _ _ _ h
          (processLayer_closed_mono _ _ _ (mem_unionS.mpr (Or.inl hx)))

theorem buildLoop_rel_mono {e : FEdge} :
    ∀ (fuel : ℕ) (currOpen closed : List FState) (acc : BuildAcc) (R : BuildResult),
    buildLoop ctx constr fuel currOpen closed acc = some R → e ∈ acc.rel → e ∈ R.rel := by
  intro fuel
  induction fuel with
  | zero => intro _ _ _ _ h; exact absurd h (by simp [buildLoop])
  | succ n ih =>
    intro currOpen closed acc R h he
    rw [buildLoop_succ] at h
    by_cases h0 : currOpen = []
    · rw [if_pos h0] at h
      cases h
      exact he
    · rw [if_neg h0] at h
      by_cases h1 : diffS currOpen closed = []
      · rw [if_pos h1] at h
        exact ih _ _ _ _ h he
      · rw [if_neg h1] at h
        exact ih _ _ _ _ h (processLayer_rel_mono _ _ _ he)

theorem buildLoop_terminal (fuel : ℕ) (closed : List FState) (acc : BuildAcc)
    (R : BuildResult) (h : buildLoop ctx constr fuel [] closed acc = some R) :
    R = finishRes acc closed := by
  cases fuel with
  | zero => exact absurd h (by simp [buildLoop])
  | succ n =>
    rw [buildLoop_succ, if_pos rfl] at h
    cases h
    rfl

theorem buildLoop_nodup_expanded :
    ∀ (fuel : ℕ) (currOpen closed : List FState) (acc : BuildAcc) (R : BuildResult),
    buildLoop ctx constr fuel currOpen closed acc = some R →
    acc.expanded.Nodup → (∀ s ∈ acc.expanded, s ∈ closed) → currOpen.Nodup →
    R.expanded.Nodup := by
  intro fuel
  induction fuel with
  | zero => intro _ _ _ _ h; exact absurd h (by simp [buildLoop])
  | succ n ih =>
    intro currOpen closed acc R h hnd hsub hop
    rw [buildLoop_succ] at h
    by_cases h0 : currOpen = []
    · rw [if_pos h0] at h
      cases h
      exact hnd
    · rw [if_neg h0] at h
      by_cases h1 : diffS currOpen closed = []
      · rw [if_pos h1] at h
        exact ih _ _ _ _ h hnd hsub List.nodup_nil
      · rw [if_neg h1] at h
        refine ih _ _ _ _ h ?_ ?_ (processLayer_nextOpen_nodup _ _ _)
        · rw [processLayer_expanded]
          rw [List.nodup_append]
          refine ⟨hnd, nodup_diffS hop, ?_⟩
          intro s hs hs9
          exact (mem_diffS.mp hs9).2 (hsub s hs)
        · intro s hs
          rw [processLayer_expanded] at hs
          rcases List.mem_append.mp hs with hs | hs
          · exact processLayer_closed_mono _ _ _ (mem_unionS.mpr (Or.inl (hsub s hs)))
          · exact processLayer_closed_mono _ _ _ (mem_unionS.mpr (Or.inr hs))

theorem procAction_snd_eq {closed : List FState} {curr : FState} {a : FrankaOp} {e : FEdge}
    (h : (procAction ctx constr closed curr a).2 = some e) :
    e = (a.name, validPre ctx a curr, nextTuple a (validPre ctx a curr), a.weight) := by
  by_cases hpre : (canon a.pre).all (fun p => decide (p ∈ curr)) = true
  · by_cases hcl : validPre ctx a curr ≠ curr ∧ validPre ctx a curr ∈ closed
    · simp [procAction, hpre, hcl] at h
    · simp [procAction, hpre, hcl] at h
      exact h.2.symm
  · simp [procAction, hpre] at h

theorem procAction_of_good {closed : List FState} {s : FState} {a : FrankaOp}
    (hpre : (canon a.pre).all (fun p => decide (p ∈ s)) = true)
    (hv : validPre ctx a s = s)
    (hfeas : (constr && a.isTransferOrRelease) = true → checkExistConstraint ctx s a = true) :
    (procAction ctx constr closed s a).2 = some (a.name, s, nextTuple a s, a.weight) := by
  have hgate : (if constr && a.isTransferOrRelease then
      checkExistConstraint ctx (validPre ctx a s) a else true) = true := by
    rw [hv]
    by_cases hg : (constr && a.isTransferOrRelease) = true
    · rw [if_pos hg]; exact hfeas hg
    · rw [if_neg hg]
  have hne : ¬(validPre ctx a s ≠ s ∧ validPre ctx a s ∈ closed) := by
    rw [hv]; simp
  simp [procAction, hpre, hne, hgate, hv]
  exact fun h1 h2 => hfeas (by simp [h1, h2])

theorem procState_aux_mono {closed : List FState} {curr : FState} {l : List FrankaOp}
    {acc : List FState × List FEdge} {e : FEdge} (he : e ∈ acc.2) :
    e ∈ (l.foldl
      (fun acc a =>
        let r := procAction ctx constr closed curr a
        (acc.1 ++ r.1.toList, acc.2 ++ r.2.toList)) acc).2 := by
  induction l generalizing acc with
  | nil => exact he
  | cons b bs ih => exact ih (List.mem_append_left _ he)

theorem procState_aux_mem {closed : List FState} {curr : FState} {a : FrankaOp} {e : FEdge}
    {l : List FrankaOp} (ha : a ∈ l) (h : (procAction ctx constr closed curr a).2 = some e) :
    ∀ acc : List FState × List FEdge,
    e ∈ (l.foldl
      (fun acc a =>
        let r := procAction ctx constr closed curr a
        (acc.1 ++ r.1.toList, acc.2 ++ r.2.toList)) acc).2 := by
  induction l with
  | nil => exact absurd ha (by simp)
  | cons b bs ih =>
    intro acc
    rw [List.foldl_cons]
    rcases List.mem_cons.mp ha with hab | hab
    · subst hab
      refine procState_aux_mono ?_
      show e ∈ acc.2 ++ (procAction ctx constr closed curr a).2.toList
      rw [h]
      simp
    · exact ih hab _

theorem procState_mem {closed : List FState} {curr : FState} {a : FrankaOp} {e : FEdge}
    (ha : a ∈ ctx.ops) (h : (procAction ctx constr closed curr a).2 = some e) :
    e ∈ (procState ctx constr closed curr).2 := by
  unfold procState
  exact procState_aux_mem ha h ([], [])

theorem procState_snd_wf {closed : List FState} {curr : FState} {e : FEdge}
    (h : e ∈ (procState ctx constr closed curr).2) :
    ∃ a ∈ ctx.ops,
      e = (a.name, validPre ctx a curr, nextTuple a (validPre ctx a curr), a.weight) := by
  unfold procState at h
  suffices H : ∀ (l : List FrankaOp) (acc : List FState × List FEdge),
      e ∈ (l.foldl
        (fun acc a =>
          let r := procAction ctx constr closed curr a
          (acc.1 ++ r.1.toList, acc.2 ++ r.2.toList)) acc).2 →
      e ∈ acc.2 ∨ ∃ a ∈ l,
        e = (a.name, validPre ctx a curr, nextTuple a (validPre ctx a curr), a.weight) by
    rcases H ctx.ops ([], []) h with h9 | h9
    · exact absurd h9 (by simp)
    · exact h9
  intro l
  induction l with
  | nil => intro acc h9; exact Or.inl h9
  | cons b bs ih =>
    intro acc h9
    rw [List.foldl_cons] at h9
    rcases ih _ h9 with h8 | h8
    · rcases List.mem_append.mp h8 with h7 | h7
      · exact Or.inl h7
      · refine Or.inr ⟨b, by simp, ?_⟩
        rcases ho : (procAction ctx constr closed curr b).2 with _ | e9
        · rw [ho] at h7; simp at h7
        · rw [ho] at h7
          simp at h7
          subst h7
          exact procAction_snd_eq ho
    · rcases h8 with ⟨a, hal, hae⟩
      exact Or.inr ⟨a, List.mem_cons_of_mem _ hal, hae⟩

/-- Edge well-formedness: every term disjoined into an action's transition
relation pairs some operator's name and weight with a source tuple and the
successor tuple computed from it. -/
def EdgeWF (ctx : FrankaCtx) (e : FEdge) : Prop :=
  ∃ a ∈ ctx.ops, e.1 = a.name ∧ e.2.2.1 = nextTuple a e.2.1 ∧ e.2.2.2 = a.weight

theorem foldl_step_rel_wf {states : List FState}
    {st : List FState × BuildAcc × List FState} {e : FEdge}
    (hwf : ∀ e9 ∈ st.2.1.rel, EdgeWF ctx e9)
    (he : e ∈ ((states.foldl (stepState ctx constr) st).2.1).rel) : EdgeWF ctx e := by
  induction states generalizing st with
  | nil => exact hwf e he
  | cons s ss ih =>
    rw [List.foldl_cons] at he
    refine ih (fun e9 he9 => ?_) he
    rw [stepState_rel] at he9
    rcases List.mem_append.mp he9 with h9 | h9
    · exact hwf e9 h9
    · rcases procState_snd_wf h9 with ⟨a, hal, hae⟩
      exact ⟨a, hal, by simp [hae]⟩

theorem buildLoop_rel_wf :
    ∀ (fuel : ℕ) (currOpen closed : List FState) (acc : BuildAcc) (R : BuildResult),
    buildLoop ctx constr fuel currOpen closed acc = some R →
    (∀ e ∈ acc.rel, EdgeWF ctx e) → ∀ e ∈ R.rel, EdgeWF ctx e := by
  intro fuel
  induction fuel with
  | zero => intro _ _ _ _ h; exact absurd h (by simp [buildLoop])
  | succ n ih =>
    intro currOpen closed acc R h hwf
    rw [buildLoop_succ] at h
    by_cases h0 : currOpen = []
    · rw [if_pos h0] at h; cases h; exact hwf
    · rw [if_neg h0] at h
      by_cases h1 : diffS currOpen closed = []
      · rw [if_pos h1] at h
        exact ih _ _ _ _ h hwf
      · rw [if_neg h1] at h
        exact ih _ _ _ _ h (fun e he => foldl_step_rel_wf hwf he)

/-- A state/operator pair at which the expansion loop necessarily records
the canonical edge: preconditions hold, `_valid_pre` coincides with the
expanded state, and the existential constraint (if enforced) passes. -/
def GoodAt (ctx : FrankaCtx) (constr : Bool) (a : FrankaOp) (s : FState) : Prop :=
  a ∈ ctx.ops ∧ (canon a.pre).all (fun p => decide (p ∈ s)) = true ∧
  validPre ctx a s = s ∧
  ((constr && a.isTransferOrRelease) = true → checkExistConstraint ctx s a = true)

/-- Invariant: every expanded state already has its canonical edges (for
all good operators) in the accumulated relation. -/
def ExpInv (ctx : FrankaCtx) (constr : Bool) (acc : BuildAcc) : Prop :=
  ∀ s ∈ acc.expanded, ∀ a : FrankaOp, GoodAt ctx constr a s →
    (a.name, s, nextTuple a s, a.weight) ∈ acc.rel

theorem stepState_expInv {st : List FState × BuildAcc × List FState} {curr : FState}
    (h : ExpInv ctx constr st.2.1) : ExpInv ctx constr (stepState ctx constr st curr).2.1 := by
  intro s hs a hg
  rw [stepState_expanded] at hs
  rw [stepState_rel]
  rcases List.mem_append.mp hs with hs | hs
  · exact List.mem_append_left _ (h s hs a hg)
  · have hsc : s = curr := by simpa using hs
    subst hsc
    rcases hg with ⟨hal, hpre, hv, hfeas⟩
    exact List.mem_append_right _ (procState_mem hal (procAction_of_good hpre hv hfeas))

theorem foldl_step_expInv {states : List FState} {st : List FState × BuildAcc × List FState}
    (h : ExpInv ctx constr st.2.1) :
    ExpInv ctx constr ((states.foldl (stepState ctx constr) st).2.1) := by
  induction states generalizing st with
  | nil => exact h
  | cons s ss ih => exact ih (stepState_expInv h)

theorem buildLoop_expInv :
    ∀ (fuel : ℕ) (currOpen closed : List FState) (acc : BuildAcc) (R : BuildResult),
    buildLoop ctx constr fuel currOpen closed acc = some R →
    ExpInv ctx constr acc →
    ∀ s ∈ R.expanded, ∀ a : FrankaOp, GoodAt ctx constr a s →
      (a.name, s, nextTuple a s, a.weight) ∈ R.rel := by
  intro fuel
  induction fuel with
  | zero => intro _ _ _ _ h; exact absurd h (by simp [buildLoop])
  | succ n ih =>
    intro currOpen closed acc R h hinv
    rw [buildLoop_succ] at h
    by_cases h0 : currOpen = []
    · rw [if_pos h0] at h; cases h; exact hinv
    · rw [if_neg h0] at h
      by_cases h1 : diffS currOpen closed = []
      · rw [if_pos h1] at h
        exact ih _ _ _ _ h hinv
      · rw [if_neg h1] at h
        exact ih _ _ _ _ h (foldl_step_expInv hinv)

theorem foldl_step_nextOpen_sorted {states : List FState}
    {st : List FState × BuildAcc × List FState} {x : FState}
    (h : ∀ y ∈ st.2.2, SortedLt y)
    (hx : x ∈ (states.foldl (stepState ctx constr) st).2.2) : SortedLt x := by
  induction states generalizing st with
  | nil => exact h x hx
  | cons s ss ih =>
    rw [List.foldl_cons] at hx
    refine ih (fun y hy => ?_) hx
    have : (stepState ctx constr st s).2.2 =
        unionS st.2.2 ((procState ctx constr st.1 s).2.map (fun e => e.2.2.1)) := rfl
    rw [this] at hy
    rcases mem_unionS.mp hy with hy | hy
    · exact h y hy
    · rcases List.mem_map.mp hy with ⟨e, he, hey⟩
      rcases procState_snd_wf he with ⟨a, _, hae⟩
      rw [← hey, hae]
      exact sortedLt_canon _

theorem buildLoop_expanded_sorted :
    ∀ (fuel : ℕ) (currOpen closed : List FState) (acc : BuildAcc) (R : BuildResult),
    buildLoop ctx constr fuel currOpen closed acc = some R →
    (∀ s ∈ currOpen, SortedLt s) → (∀ s ∈ acc.expanded, SortedLt s) →
    ∀ s ∈ R.expanded, SortedLt s := by
  intro fuel
  induction fuel with
  | zero => intro _ _ _ _ h; exact absurd h (by simp [buildLoop])
  | succ n ih =>
    intro currOpen closed acc R h hop hexp
    rw [buildLoop_succ] at h
    by_cases h0 : currOpen = []
    · rw [if_pos h0] at h; cases h; exact hexp
    · rw [if_neg h0] at h
      by_cases h1 : diffS currOpen closed = []
      · rw [if_pos h1] at h
        exact ih _ _ _ _ h (by simp) hexp
      · rw [if_neg h1] at h
        refine ih _ _ _ _ h ?_ ?_
        · intro s hs
          exact foldl_step_nextOpen_sorted (by simp) hs
        · intro s hs
          rw [processLayer_expanded] at hs
          rcases List.mem_append.mp hs with hs | hs
          · exact hexp s hs
          · exact hop s (mem_diffS.mp hs).1

/-- When the expanded state's robot configuration coincides with the
operator's required robot configuration, `_valid_pre` is the expanded
state itself. -/
theorem validPre_eq_self {a : FrankaOp} {s : FState} (hs : SortedLt s)
    (hrob : robotConf ctx s = neccRobot ctx a) : validPre ctx a s = s := by
  unfold validPre
  have hfil : (robotConf ctx s).filter (fun p => decide (p ∈ neccRobot ctx a)) =
      robotConf ctx s := by
    refine List.filter_eq_self.mpr ?_
    intro p hp
    rw [← hrob]
    simpa using hp
  rw [hfil]
  refine sortedLt_ext (sortedLt_canon _) hs ?_
  intro x
  rw [mem_canon, List.mem_append]
  unfold robotConf worldConf
  simp only [List.mem_filter]
  cases hw : ctx.isWorldPred x <;> simp [hw]

theorem name_inj {α β : Type} [DecidableEq β] {l : List α} {f : α → β} {a b : α}
    (hnd : (l.map f).Nodup) (ha : a ∈ l) (hb : b ∈ l) (hf : f a = f b) : a = b := by
  induction l with
  | nil => exact absurd ha (by simp)
  | cons c cs ih =>
    rw [List.map_cons, List.nodup_cons] at hnd
    rcases hnd with ⟨hc, hcs⟩
    rcases List.mem_cons.mp ha with ha9 | ha9 <;> rcases List.mem_cons.mp hb with hb9 | hb9
    · rw [ha9, hb9]
    · subst ha9
      rw [hf] at hc
      exact absurd (List.mem_map_of_mem f hb9) hc
    · subst hb9
      rw [← hf] at hc
      exact absurd (List.mem_map_of_mem f ha9) hc
    · exact ih hcs ha9 hb9

theorem buildLoop_expanded_mono {x : FState} :
    ∀ (fuel : ℕ) (currOpen closed : List FState) (acc : BuildAcc) (R : BuildResult),
    buildLoop ctx constr fuel currOpen closed acc = some R →
    x ∈ acc.expanded → x ∈ R.expanded := by
  intro fuel
  induction fuel with
  | zero => intro _ _ _ _ h; exact absurd h (by simp [buildLoop])
  | succ n ih =>
    intro currOpen closed acc R h hx
    rw [buildLoop_succ] at h
    by_cases h0 : currOpen = []
    · rw [if_pos h0] at h; cases h; exact hx
    · rw [if_neg h0] at h
      by_cases h1 : diffS currOpen closed = []
      · rw [if_pos h1] at h
        exact ih _ _ _ _ h hx
      · rw [if_neg h1] at h
        refine ih _ _ _ _ h ?_
        rw [processLayer_expanded]
        exact List.mem_append_left _ hx

theorem createWTSFranka_eq (ctx : FrankaCtx) (b : Bool) (fuel : ℕ) :
    createWTSFranka ctx b fuel =
      buildLoop ctx (effConstr ctx b) fuel [canon ctx.init] []
        { rel := [], labels := [lblPair ctx (canon ctx.init)], expanded := [] } := rfl

end LoopLemmas

/-- Concrete single-operator context on which the construction rebases the
recorded edge at `_valid_pre`: the initial state `[0, 1, 2]` carries one
extra robot-configuration predicate (`0`) beyond the operator's required
robot configuration (`1`), with `2` the world-configuration predicate. -/
def exOp : FrankaOp :=
  { name := 0, weight := 1, isTransferOrRelease := false, boxId := 0, dest := 0,
    pre := [1, 2], addEff := [3], delEff := [2] }

/-- Context for the counterexample run (predicates below 2 are robot
configuration, predicates from 2 on are world configuration). -/
def exCtx : FrankaCtx :=
  { ops := [exOp], boxes := [0], onPred := fun _ _ => 0,
    isWorldPred := fun p => decide (2 ≤ p), lblOf := fun _ => 0, init := [0, 1, 2] }

/-- Result of the counterexample run. -/
def exRes : BuildResult := (createWTSFranka exCtx true 5).getD default

/-- C2, counterexample: the initial state `[0, 1, 2]` is expanded, the
operator's preconditions `[1, 2]` are a subset of it, and the mutual-
exclusion check passes vacuously (not a transfer/release action), yet the
relation contains no pair with source `[0, 1, 2]`: the recorded edge is
rebased at the weaker `_valid_pre` tuple `[1, 2]`, so the claimed pair
`(s, (s − del) ∪ add)` is absent. -/
theorem franka_edge_claim_counterexample :
    createWTSFranka exCtx true 5 = some exRes
    ∧ [0, 1, 2] ∈ exRes.expanded
    ∧ ((canon exOp.pre).all fun p => decide (p ∈ ([0, 1, 2] : FState))) = true
    ∧ exOp.isTransferOrRelease = false
    ∧ ¬ SymContains exRes exOp.name [0, 1, 2] (nextTuple exOp [0, 1, 2]) := by
  decide

/-- C2 (amended): whenever an expanded state's robot configuration equals
the action's required robot configuration (so `_valid_pre` is the state
itself), its preconditions hold, the mutual-exclusion check passes and the
action's weight terminal is non-zero, the action's relation contains the
pair `(s, (s − del) ∪ add)`, and every recorded pair with source `s` for
this action has exactly that successor. -/
theorem franka_tr_edge_exactness (ctx : FrankaCtx) (b : Bool) (fuel : ℕ)
    (a : FrankaOp) (s : FState) (R : BuildResult)
    (hrun : createWTSFranka ctx b fuel = some R)
    (hnames : (ctx.ops.map FrankaOp.name).Nodup)
    (ha : a ∈ ctx.ops)
    (hexp : s ∈ R.expanded)
    (hpre : ∀ p ∈ a.pre, p ∈ s)
    (hrob : robotConf ctx s = neccRobot ctx a)
    (hfeas : (effConstr ctx b && a.isTransferOrRelease) = true →
      checkExistConstraint ctx s a = true)
    (hw : a.weight ≠ 0) :
    SymContains R a.name s (nextTuple a s) ∧
    ∀ t w, (a.name, s, t, w) ∈ R.rel → t = nextTuple a s := by
  rw [createWTSFranka_eq] at hrun
  have hsort : SortedLt s := by
    refine buildLoop_expanded_sorted fuel _ _ _ R hrun ?_ ?_ s hexp
    · intro s9 hs9
      have : s9 = canon ctx.init := by simpa using hs9
      rw [this]
      exact sortedLt_canon _
    · intro s9 hs9
      exact absurd hs9 (by simp)
  have hv : validPre ctx a s = s := validPre_eq_self hsort hrob
  have hpre9 : ((canon a.pre).all fun p => decide (p ∈ s)) = true := by
    simp only [List.all_eq_true, decide_eq_true_eq]
    intro p hp
    exact hpre p (mem_canon.mp hp)
  have hgood : GoodAt ctx (effConstr ctx b) a s := ⟨ha, hpre9, hv, hfeas⟩
  have hedge := buildLoop_expInv fuel _ _ _ R hrun
    (by intro s9 hs9 a9 hg; exact absurd hs9 (by simp)) s hexp a hgood
  constructor
  · exact ⟨(a.name, s, nextTuple a s, a.weight), hedge, rfl, rfl, rfl, hw⟩
  · intro t w hmem
    have hwf := buildLoop_rel_wf fuel _ _ _ R hrun
      (by intro e he; exact absurd he (by simp)) _ hmem
    rcases hwf with ⟨a9, ha9, hn, ht, hw9⟩
    have ha9a : a9 = a := name_inj hnames ha9 ha (by rw [← hn])
    subst ha9a
    simpa using ht

/-- Second concrete context: the operator requires the whole robot
configuration of the initial state, so `_valid_pre` is the expanded state
itself and the canonical edge is recorded. -/
def exOp2 : FrankaOp :=
  { name := 0, weight := 1, isTransferOrRelease := false, boxId := 0, dest := 0,
    pre := [0, 1, 2], addEff := [3], delEff := [2] }

/-- Context for the witness run of the amended edge-exactness theorem. -/
def exCtx2 : FrankaCtx :=
  { ops := [exOp2], boxes := [0], onPred := fun _ _ => 0,
    isWorldPred := fun p => decide (2 ≤ p), lblOf := fun _ => 0, init := [0, 1, 2] }

/-- Result of the witness run. -/
def exRes2 : BuildResult := (createWTSFranka exCtx2 true 5).getD default

/-- C2, witness for the amended theorem at a concrete run. -/
theorem franka_tr_edge_exactness_witness :
    SymContains exRes2 exOp2.name [0, 1, 2] (nextTuple exOp2 [0, 1, 2]) ∧
    ∀ t w, (exOp2.name, [0, 1, 2], t, w) ∈ exRes2.rel → t = nextTuple exOp2 [0, 1, 2] :=
  franka_tr_edge_exactness exCtx2 true 5 exOp2 [0, 1, 2] exRes2 (by decide) (by decide)
    (by decide) (by decide) (by decide) (by decide) (by decide) (by decide)

/-- C3: the closed set only grows along the layered loop; no state is ever
expanded twice (layers are cleared of closed states before expansion); and
the loop stops exactly at the layers whose open set is empty after
subtracting the closed set: such a layer leaves the result untouched,
while a layer with a non-empty remainder expands every one of its states
(all of them new). -/
theorem franka_loop_discipline (ctx : FrankaCtx) (constr : Bool) (fuel : ℕ)
    (currOpen closed : List FState) (acc : BuildAcc) (R : BuildResult)
    (hrun : buildLoop ctx constr fuel currOpen closed acc = some R)
    (hnd : acc.expanded.Nodup)
    (hsub : ∀ s ∈ acc.expanded, s ∈ closed)
    (hop : currOpen.Nodup) :
    (∀ x ∈ closed, x ∈ R.closed)
    ∧ R.expanded.Nodup
    ∧ (diffS currOpen closed = [] → R = finishRes acc closed)
    ∧ (diffS currOpen closed ≠ [] →
        ∀ s ∈ diffS currOpen closed, s ∈ R.expanded ∧ s ∉ acc.expanded) := by
  refine ⟨fun x hx => buildLoop_closed_mono fuel _ _ _ R hrun hx,
    buildLoop_nodup_expanded fuel _ _ _ R hrun hnd hsub hop, ?_, ?_⟩
  · intro h1
    cases fuel with
    | zero => exact absurd hrun (by simp [buildLoop])
    | succ n =>
      rw [buildLoop_succ] at hrun
      by_cases h0 : currOpen = []
      · rw [if_pos h0] at hrun
        cases hrun
        rfl
      · rw [if_neg h0, if_pos h1] at hrun
        exact buildLoop_terminal _ _ _ _ hrun
  · intro h1 s hs
    cases fuel with
    | zero => exact absurd hrun (by simp [buildLoop])
    | succ n =>
      rw [buildLoop_succ] at hrun
      have h0 : currOpen ≠ [] := by
        intro h0
        subst h0
        exact h1 (by simp [diffS])
      rw [if_neg h0, if_neg h1] at hrun
      refine ⟨buildLoop_expanded_mono n _ _ _ R hrun ?_, fun hs9 => (mem_diffS.mp hs).2 (hsub s hs9)⟩
    -- s is expanded in this layer, then expansion is monotone
      rw [processLayer_expanded]
      exact List.mem_append_right _ hs

/-- C3, witness at the concrete counterexample run. -/
theorem franka_loop_discipline_witness :
    (∀ x ∈ ([] : List FState), x ∈ exRes.closed)
    ∧ exRes.expanded.Nodup
    ∧ (diffS [[0, 1, 2]] ([] : List FState) = [] →
        exRes = finishRes ⟨[], [([0, 1, 2], 0)], []⟩ [])
    ∧ (diffS [[0, 1, 2]] ([] : List FState) ≠ [] →
        ∀ s ∈ diffS [[0, 1, 2]] ([] : List FState),
          s ∈ exRes.expanded ∧ s ∉ (⟨[], [([0, 1, 2], 0)], []⟩ : BuildAcc).expanded) :=
  franka_loop_discipline exCtx false 5 [[0, 1, 2]] [] ⟨[], [([0, 1, 2], 0)], []⟩ exRes
    (by decide) (by decide) (by decide) (by decide)

/-- C5: `_check_exist_constraint` returns `False` exactly when some box
other than the manipulated one has its `(on b dest)` predicate in the
supplied state-label tuple; and inside the expansion loop a transfer or
release action whose check fails (with the existential constraint enabled)
records no edge. -/
theorem checkExistConstraint_spec (ctx : FrankaCtx) (a : FrankaOp) (v : FState)
    (hnd : ctx.boxes.Nodup) :
    (checkExistConstraint ctx v a = false ↔
      ∃ b ∈ ctx.boxes, b ≠ a.boxId ∧ ctx.onPred b a.dest ∈ v)
    ∧ (∀ (closed : List FState) (s : FState), a.isTransferOrRelease = true →
        checkExistConstraint ctx (validPre ctx a s) a = false →
        (procAction ctx true closed s a).2 = none) := by
  constructor
  · have h1 : checkExistConstraint ctx v a = false ↔
        ∃ b ∈ ctx.boxes.erase a.boxId, ctx.onPred b a.dest ∈ v := by
      simp [checkExistConstraint]
    rw [h1]
    constructor
    · rintro ⟨b, hb, hbv⟩
      have h9 := hnd.mem_erase_iff.mp hb
      exact ⟨b, h9.2, h9.1, hbv⟩
    · rintro ⟨b, hb, hne, hbv⟩
      exact ⟨b, hnd.mem_erase_iff.mpr ⟨hne, hb⟩, hbv⟩
  · intro closed s hTR hfalse
    by_cases hpre : ((canon a.pre).all fun p => decide (p ∈ s)) = true
    · by_cases hcl : validPre ctx a s ≠ s ∧ validPre ctx a s ∈ closed
      · simp [procAction, hpre, hcl]
      · simp [procAction, hpre, hcl, hTR, hfalse]
    · simp [procAction, hpre]

/-- Two-box context for the existential-constraint witness: box `1` sits at
the destination of the transfer handled by the operator. -/
def exCtx5 : FrankaCtx :=
  { ops := [], boxes := [0, 1], onPred := fun b l => 10 * b + l,
    isWorldPred := fun _ => true, lblOf := fun _ => 0, init := [] }

/-- Transfer operator for the existential-constraint witness. -/
def exOp5 : FrankaOp :=
  { name := 7, weight := 1, isTransferOrRelease := true, boxId := 0, dest := 5,
    pre := [], addEff := [], delEff := [] }

/-- C5, witness at a concrete two-box instance. -/
theorem checkExistConstraint_spec_witness :
    (checkExistConstraint exCtx5 [15] exOp5 = false ↔
      ∃ b ∈ exCtx5.boxes, b ≠ exOp5.boxId ∧ exCtx5.onPred b exOp5.dest ∈ ([15] : FState))
    ∧ (∀ (closed : List FState) (s : FState), exOp5.isTransferOrRelease = true →
        checkExistConstraint exCtx5 (validPre exCtx5 exOp5 s) exOp5 = false →
        (procAction exCtx5 true closed s exOp5).2 = none) :=
  checkExistConstraint_spec exCtx5 exOp5 [15] (by decide)

/-!
Weighted diagrams of the direct-mode builder
(`SymbolicWeightedTransitionSystem.build_actions_tr_func_weighted`).

A weighted diagram (CUDD ADD) over a pool-assignment type `A` is embedded
as a function from (current, next) assignment pairs to natural-number
terminal values.  The operations mirror the ADD operations the builder
uses: `&` is the pointwise product (conjunction on 0-1 diagrams, weight
tagging against a constant terminal), `|` the pointwise maximum
(disjunction), `~` the 0-1 complement.  `negate()` is only ever applied
after an `isZero()` check succeeds, where the builder's intent and effect
is the complement (the code comment reads "mean you can take the action
under all conditions"); we embed it as the complement.  Each fact is
encoded by `_create_sym_var_map` as one full assignment of the pool, so a
fact cube constrains the entire current (resp. next) half of the pair.
-/

/-- Weighted diagram over pool-assignment type `A`: current × next
assignment pairs to terminal values. -/
def WADD (A : Type) : Type := (A × A) → ℕ

/-- The one (identity) diagram, `manager.bddOne()`. -/
def wOne {A : Type} : WADD A := fun _ => 1

/-- The zero diagram, `manager.bddZero()`. -/
def wZero {A : Type} : WADD A := fun _ => 0

/-- Conjunction `&` (pointwise product). -/
def wAnd {A : Type} (f g : WADD A) : WADD A := fun v => f v * g v

/-- Disjunction `|` (pointwise maximum). -/
def wOr {A : Type} (f g : WADD A) : WADD A := fun v => max (f v) (g v)

/-- Complement `~` on 0-1 diagrams. -/
def wCmpl {A : Type} (f : WADD A) : WADD A := fun v => if f v = 0 then 1 else 0

/-- Constant terminal diagram, `manager.addConst(w)`. -/
def wConst {A : Type} (n : ℕ) : WADD A := fun _ => n

/-- The `isZero()` test. -/
def wIsZero {A : Type} [Fintype A] (f : WADD A) : Bool := decide (∀ v, f v = 0)

/-- Fact cube over the current half of the pool: the diagram of
`predicate_add_sym_map_curr[p]`, true exactly on the assignment `enc p`. -/
def cubeCurr {A F : Type} [DecidableEq A] (enc : F → A) (p : F) : WADD A :=
  fun v => if v.1 = enc p then 1 else 0

/-- Fact cube over the next half of the pool
(`predicate_add_sym_map_nxt[p]`). -/
def cubeNxt {A F : Type} [DecidableEq A] (enc : F → A) (p : F) : WADD A :=
  fun v => if v.2 = enc p then 1 else 0

/-- Python's `reduce(lambda a, b: a & b, l)` guarded by the emptiness
check, with `empty` the diagram substituted for an empty list. -/
def reduceAnd {A : Type} (l : List (WADD A)) (empty : WADD A) : WADD A :=
  match l with
  | [] => empty
  | h :: t => t.foldl wAnd h

/-- Python `reduce(lambda a, b: a | b, l)`, the zero diagram for an empty list. -/
def reduceOr {A : Type} (l : List (WADD A)) : WADD A :=
  match l with
  | [] => wZero
  | h :: t => t.foldl wOr h

/-- Precondition component of the per-action term: conjunction of the
precondition cubes over current-state variables (`bddOne` when empty),
negated when it `isZero()`. -/
def preComponentW {A F : Type} [Fintype A] [DecidableEq A] (enc : F → A)
    (pres : List F) : WADD A :=
  if wIsZero (reduceAnd (pres.map (cubeCurr enc)) wOne) then
    wCmpl (reduceAnd (pres.map (cubeCurr enc)) wOne)
  else reduceAnd (pres.map (cubeCurr enc)) wOne

/-- Add-effect component: conjunction of the add-effect cubes over
next-state variables (`bddOne` when empty), negated when it `isZero()`. -/
def addComponentW {A F : Type} [Fintype A] [DecidableEq A] (enc : F → A)
    (adds : List F) : WADD A :=
  if wIsZero (reduceAnd (adds.map (cubeNxt enc)) wOne) then
    wCmpl (reduceAnd (adds.map (cubeNxt enc)) wOne)
  else reduceAnd (adds.map (cubeNxt enc)) wOne

/-- Delete-effect component: the complement `~del_sym` of the conjunction
of the delete-effect cubes over next-state variables (`bddZero` when
empty). -/
def delComponentW {A F : Type} [DecidableEq A] (enc : F → A)
    (dels : List F) : WADD A :=
  wCmpl (reduceAnd (dels.map (cubeNxt enc)) wZero)

/-- The per-action term disjoined into `sym_tr_actions[idx]` by
`build_actions_tr_func_weighted`:
`pre_sym & add_sym & ~del_sym & weight_dict[action]`. -/
def buildActionTermW {A F : Type} [Fintype A] [DecidableEq A] (enc : F → A)
    (pres adds dels : List F) (w : ℕ) : WADD A :=
  wAnd (wAnd (wAnd (preComponentW enc pres) (addComponentW enc adds))
    (delComponentW enc dels)) (wConst w)

/-- The term the claim/spec describes (stated from the spec's words, for
comparison with `buildActionTermW`): conjunction of precondition cubes,
conjunction of add-effect cubes, negation of the DISJUNCTION of
delete-effect cubes, and the weight terminal, with an empty set
contributing the identity diagram. -/
def claimTrTermW {A F : Type} [DecidableEq A] (enc : F → A)
    (pres adds dels : List F) (w : ℕ) : WADD A :=
  wAnd (wAnd (wAnd (reduceAnd (pres.map (cubeCurr enc)) wOne)
    (reduceAnd (adds.map (cubeNxt enc)) wOne))
    (wCmpl (reduceOr (dels.map (cubeNxt enc))))) (wConst w)

/-- Pointwise characterisation of the term the code actually builds: the
weight wherever the preconditions hold on the current half (or the
precondition conjunction is empty or unsatisfiable), the add effects hold
on the next half (or likewise), and the delete-effect cubes are not ALL
satisfied on the next half (or the delete set is empty); zero elsewhere. -/
def amendedTrTermW {A F : Type} [Fintype A] [DecidableEq A] [DecidableEq F]
    (enc : F → A) (pres adds dels : List F) (w : ℕ) : WADD A :=
  fun v =>
    if ((∀ f ∈ pres, v.1 = enc f) ∨ ∀ x : A, ¬ ∀ f ∈ pres, x = enc f)
        ∧ ((∀ f ∈ adds, v.2 = enc f) ∨ ∀ y : A, ¬ ∀ f ∈ adds, y = enc f)
        ∧ (dels = [] ∨ ¬ ∀ f ∈ dels, v.2 = enc f)
    then w else 0

theorem foldl_wAnd_apply {A : Type} (l : List (WADD A)) (g : WADD A) (v : A × A) :
    (l.foldl wAnd g) v = g v * (l.map (fun f => f v)).prod := by
  induction l generalizing g with
  | nil => simp
  | cons h t ih =>
    rw [List.foldl_cons, ih]
    simp [wAnd, Nat.mul_assoc]

theorem prod_map_indicator {α : Type} (l : List α) (P : α → Prop) [DecidablePred P] :
    (l.map (fun a => if P a then (1 : ℕ) else 0)).prod = if ∀ a ∈ l, P a then 1 else 0 := by
  induction l with
  | nil => simp
  | cons h t ih =>
    rw [List.map_cons, List.prod_cons, ih]
    by_cases hh : P h <;> by_cases ht : ∀ a ∈ t, P a <;>
      simp [hh, ht, List.forall_mem_cons]

theorem reduceAnd_cubeCurr_apply {A F : Type} [DecidableEq A] (enc : F → A)
    (l : List F) (v : A × A) :
    reduceAnd (l.map (cubeCurr enc)) wOne v = if ∀ f ∈ l, v.1 = enc f then 1 else 0 := by
  cases l with
  | nil => simp [reduceAnd, wOne]
  | cons h t =>
    show ((t.map (cubeCurr enc)).foldl wAnd (cubeCurr enc h)) v = _
    rw [foldl_wAnd_apply]
    have h9 : (t.map (cubeCurr enc)).map (fun f => f v) =
        t.map (fun f => if v.1 = enc f then (1 : ℕ) else 0) := by
      rw [List.map_map]; rfl
    rw [h9, prod_map_indicator]
    show (if v.1 = enc h then (1 : ℕ) else 0) * _ = _
    by_cases hh : v.1 = enc h <;> by_cases ht : ∀ f ∈ t, v.1 = enc f <;>
      simp [hh, ht, List.forall_mem_cons]

theorem reduceAnd_cubeNxt_apply {A F : Type} [DecidableEq A] (enc : F → A)
    (l : List F) (v : A × A) :
    reduceAnd (l.map (cubeNxt enc)) wOne v = if ∀ f ∈ l, v.2 = enc f then 1 else 0 := by
  cases l with
  | nil => simp [reduceAnd, wOne]
  | cons h t =>
    show ((t.map (cubeNxt enc)).foldl wAnd (cubeNxt enc h)) v = _
    rw [foldl_wAnd_apply]
    have h9 : (t.map (cubeNxt enc)).map (fun f => f v) =
        t.map (fun f => if v.2 = enc f then (1 : ℕ) else 0) := by
      rw [List.map_map]; rfl
    rw [h9, prod_map_indicator]
    show (if v.2 = enc h then (1 : ℕ) else 0) * _ = _
    by_cases hh : v.2 = enc h <;> by_cases ht : ∀ f ∈ t, v.2 = enc f <;>
      simp [hh, ht, List.forall_mem_cons]

theorem reduceAnd_cubeNxt_cons_apply {A F : Type} [DecidableEq A] (enc : F → A)
    (h : F) (t : List F) (v : A × A) :
    reduceAnd ((h :: t).map (cubeNxt enc)) wZero v =
      if ∀ f ∈ h :: t, v.2 = enc f then 1 else 0 := by
  show ((t.map (cubeNxt enc)).foldl wAnd (cubeNxt enc h)) v = _
  have h8 := reduceAnd_cubeNxt_apply enc (h :: t) v
  exact h8

theorem wIsZero_iff {A : Type} [Fintype A] (f : WADD A) :
    wIsZero f = true ↔ ∀ v, f v = 0 := by
  simp [wIsZero]

theorem preComponentW_apply {A F : Type} [Fintype A] [DecidableEq A] (enc : F → A)
    (pres : List F) (v : A × A) :
    preComponentW enc pres v =
      if (∀ f ∈ pres, v.1 = enc f) ∨ ∀ x : A, ¬ ∀ f ∈ pres, x = enc f then 1 else 0 := by
  unfold preComponentW
  by_cases hz : wIsZero (reduceAnd (pres.map (cubeCurr enc)) wOne) = true
  · rw [if_pos hz]
    have h0 : ∀ u, reduceAnd (pres.map (cubeCurr enc)) wOne u = 0 := (wIsZero_iff _).mp hz
    have hunsat : ∀ x : A, ¬ ∀ f ∈ pres, x = enc f := by
      intro x hx
      have h7 := h0 (x, v.2)
      rw [reduceAnd_cubeCurr_apply] at h7
      rw [if_pos hx] at h7
      exact one_ne_zero h7
    show (if reduceAnd (pres.map (cubeCurr enc)) wOne v = 0 then 1 else 0) = _
    rw [if_pos (h0 v), if_pos (Or.inr hunsat)]
  · rw [if_neg hz]
    rw [reduceAnd_cubeCurr_apply]
    by_cases hsat : ∀ f ∈ pres, v.1 = enc f
    · rw [if_pos hsat, if_pos (Or.inl hsat)]
    · have hno : ¬ ∀ x : A, ¬ ∀ f ∈ pres, x = enc f := by
        intro hall
        apply hz
        rw [wIsZero_iff]
        intro u
        rw [reduceAnd_cubeCurr_apply]
        rw [if_neg (hall u.1)]
      have hcond : ¬ ((∀ f ∈ pres, v.1 = enc f) ∨ ∀ x : A, ¬ ∀ f ∈ pres, x = enc f) := by
        rintro (h | h)
        · exact hsat h
        · exact hno h
      rw [if_neg hsat, if_neg hcond]

theorem addComponentW_apply {A F : Type} [Fintype A] [DecidableEq A] (enc : F → A)
    (adds : List F) (v : A × A) :
    addComponentW enc adds v =
      if (∀ f ∈ adds, v.2 = enc f) ∨ ∀ y : A, ¬ ∀ f ∈ adds, y = enc f then 1 else 0 := by
  unfold addComponentW
  by_cases hz : wIsZero (reduceAnd (adds.map (cubeNxt enc)) wOne) = true
  · rw [if_pos hz]
    have h0 : ∀ u, reduceAnd (adds.map (cubeNxt enc)) wOne u = 0 := (wIsZero_iff _).mp hz
    have hunsat : ∀ y : A, ¬ ∀ f ∈ adds, y = enc f := by
      intro y hy
      have h7 := h0 (v.1, y)
      rw [reduceAnd_cubeNxt_apply] at h7
      rw [if_pos hy] at h7
      exact one_ne_zero h7
    show (if reduceAnd (adds.map (cubeNxt enc)) wOne v = 0 then 1 else 0) = _
    rw [if_pos (h0 v), if_pos (Or.inr hunsat)]
  · rw [if_neg hz]
    rw [reduceAnd_cubeNxt_apply]
    by_cases hsat : ∀ f ∈ adds, v.2 = enc f
    · rw [if_pos hsat, if_pos (Or.inl hsat)]
    · have hno : ¬ ∀ y : A, ¬ ∀ f ∈ adds, y = enc f := by
        intro hall
        apply hz
        rw [wIsZero_iff]
        intro u
        rw [reduceAnd_cubeNxt_apply]
        rw [if_neg (hall u.2)]
      have hcond : ¬ ((∀ f ∈ adds, v.2 = enc f) ∨ ∀ y : A, ¬ ∀ f ∈ adds, y = enc f) := by
        rintro (h | h)
        · exact hsat h
        · exact hno h
      rw [if_neg hsat, if_neg hcond]

theorem delComponentW_apply {A F : Type} [DecidableEq A] [DecidableEq F] (enc : F → A)
    (dels : List F) (v : A × A) :
    delComponentW enc dels v =
      if dels = [] ∨ ¬ ∀ f ∈ dels, v.2 = enc f then 1 else 0 := by
  unfold delComponentW
  cases dels with
  | nil => simp [reduceAnd, wZero, wCmpl]
  | cons h t =>
    show (if reduceAnd ((h :: t).map (cubeNxt enc)) wZero v = 0 then 1 else 0) = _
    rw [reduceAnd_cubeNxt_cons_apply]
    by_cases hsat : ∀ f ∈ h :: t, v.2 = enc f
    · have hcond : ¬ (h :: t = [] ∨ ¬ ∀ f ∈ h :: t, v.2 = enc f) := by
        rintro (h9 | h9)
        · exact List.noConfusion h9
        · exact h9 hsat
      rw [if_pos hsat]
      rw [if_neg hcond]
      simp
    · rw [if_neg hsat, if_pos (Or.inr hsat)]
      simp [hsat]

/-- C1 (amended): the diagram disjoined into the action's entry equals the
conjunction of its precondition cubes over current-state variables
(replaced by the identity when empty or identically false), its add-effect
cubes over next-state variables (likewise), the negation of the
CONJUNCTION of its delete-effect cubes over next-state variables (identity
when the delete set is empty), and the weight terminal. -/
theorem build_actions_tr_term_eq (A F : Type) [Fintype A] [DecidableEq A] [DecidableEq F]
    (enc : F → A) (pres adds dels : List F) (w : ℕ) :
    buildActionTermW enc pres adds dels w = amendedTrTermW enc pres adds dels w := by
  funext v
  show (((preComponentW enc pres v) * (addComponentW enc adds v)) *
      (delComponentW enc dels v)) * w = amendedTrTermW enc pres adds dels w v
  rw [preComponentW_apply, addComponentW_apply, delComponentW_apply]
  unfold amendedTrTermW
  by_cases c1 : (∀ f ∈ pres, v.1 = enc f) ∨ ∀ x : A, ¬ ∀ f ∈ pres, x = enc f
  · by_cases c2 : (∀ f ∈ adds, v.2 = enc f) ∨ ∀ y : A, ¬ ∀ f ∈ adds, y = enc f
    · by_cases c3 : dels = [] ∨ ¬ ∀ f ∈ dels, v.2 = enc f
      · rw [if_pos c1, if_pos c2, if_pos c3, if_pos ⟨c1, c2, c3⟩]
        simp
      · have hcc : ¬ (((∀ f ∈ pres, v.1 = enc f) ∨ ∀ x : A, ¬ ∀ f ∈ pres, x = enc f)
            ∧ ((∀ f ∈ adds, v.2 = enc f) ∨ ∀ y : A, ¬ ∀ f ∈ adds, y = enc f)
            ∧ (dels = [] ∨ ¬ ∀ f ∈ dels, v.2 = enc f)) := fun hc => c3 hc.2.2
        rw [if_pos c1, if_pos c2, if_neg c3, if_neg hcc]
        simp
    · have hcc : ¬ (((∀ f ∈ pres, v.1 = enc f) ∨ ∀ x : A, ¬ ∀ f ∈ pres, x = enc f)
          ∧ ((∀ f ∈ adds, v.2 = enc f) ∨ ∀ y : A, ¬ ∀ f ∈ adds, y = enc f)
          ∧ (dels = [] ∨ ¬ ∀ f ∈ dels, v.2 = enc f)) := fun hc => c2 hc.2.1
      rw [if_pos c1, if_neg c2, if_neg hcc]
      simp
  · have hcc : ¬ (((∀ f ∈ pres, v.1 = enc f) ∨ ∀ x : A, ¬ ∀ f ∈ pres, x = enc f)
        ∧ ((∀ f ∈ adds, v.2 = enc f) ∨ ∀ y : A, ¬ ∀ f ∈ adds, y = enc f)
        ∧ (dels = [] ∨ ¬ ∀ f ∈ dels, v.2 = enc f)) := fun hc => c1 hc.1
    rw [if_neg c1, if_neg hcc]
    simp

/-- C1, counterexample: for an action with two distinct delete effects the
code's term (which negates the CONJUNCTION of the delete cubes, a zero
diagram, hence drops the delete constraint entirely) differs from the
claimed term (which negates their disjunction) at the next-state
assignment satisfying one of the delete effects. -/
theorem build_actions_tr_claim_counterexample :
    buildActionTermW (A := Bool) (F := Bool) id [] [] [false, true] 1 (true, false) = 1
    ∧ claimTrTermW (A := Bool) (F := Bool) id [] [] [false, true] 1 (true, false) = 0
    ∧ buildActionTermW (A := Bool) (F := Bool) id [] [] [false, true] 1 ≠
        claimTrTermW (A := Bool) (F := Bool) id [] [] [false, true] 1 := by
  refine ⟨by decide, by decide, fun h => ?_⟩
  have h1 : buildActionTermW (A := Bool) (F := Bool) id [] [] [false, true] 1
      (true, false) = 1 := by decide
  have h2 : claimTrTermW (A := Bool) (F := Bool) id [] [] [false, true] 1
      (true, false) = 0 := by decide
  rw [h] at h1
  exact one_ne_zero (h1.symm.trans h2)

/-- C9: an empty precondition, add-effect or delete-effect set contributes
the identity (one) diagram for its component of the conjunction, and with
all three sets empty the disjoined term is exactly the weight terminal —
an empty set never forces the false diagram. -/
theorem empty_sets_identity_components {A F : Type} [Fintype A] [DecidableEq A]
    [Nonempty A] (enc : F → A) (pres adds dels : List F) (w : ℕ) :
    (pres = [] → preComponentW enc pres = wOne)
    ∧ (adds = [] → addComponentW enc adds = wOne)
    ∧ (dels = [] → delComponentW enc dels = wOne)
    ∧ (pres = [] → adds = [] → dels = [] →
        buildActionTermW enc pres adds dels w = wConst w) := by
  have hz : wIsZero (A := A) wOne = false := by
    rw [wIsZero, decide_eq_false_iff_not]
    intro hall
    obtain ⟨v⟩ := (inferInstance : Nonempty (A × A))
    exact one_ne_zero (hall v)
  have hpre : pres = [] → preComponentW enc pres = wOne := by
    intro h; subst h
    show (if wIsZero (A := A) wOne = true then wCmpl wOne else wOne) = wOne
    rw [hz]
    simp
  have hadd : adds = [] → addComponentW enc adds = wOne := by
    intro h; subst h
    show (if wIsZero (A := A) wOne = true then wCmpl wOne else wOne) = wOne
    rw [hz]
    simp
  have hdel : dels = [] → delComponentW enc dels = wOne := by
    intro h; subst h
    funext v
    simp [delComponentW, reduceAnd, wZero, wCmpl, wOne]
  refine ⟨hpre, hadd, hdel, ?_⟩
  intro h1 h2 h3
  rw [buildActionTermW, hpre h1, hadd h2, hdel h3]
  funext v
  simp [wAnd, wOne, wConst]

/-- C9, witness: the empty-set components at a concrete Boolean pool. -/
theorem empty_sets_identity_components_witness :
    (([] : List Bool) = [] → preComponentW (A := Bool) (F := Bool) id [] = wOne)
    ∧ (([] : List Bool) = [] → addComponentW (A := Bool) (F := Bool) id [] = wOne)
    ∧ (([] : List Bool) = [] → delComponentW (A := Bool) (F := Bool) id [] = wOne)
    ∧ (([] : List Bool) = [] → ([] : List Bool) = [] → ([] : List Bool) = [] →
        buildActionTermW (A := Bool) (F := Bool) id [] [] [] 5 = wConst 5) :=
  empty_sets_identity_components (A := Bool) (F := Bool) id [] [] [] 5

/-!
Weight-dictionary construction (`FrankaWorld._create_weight_dict`) and the
state/label variable allocation of `frankaworld_main.py`.  Action names
are embedded as character lists; `name.split()[0][1:]` (first whitespace
token minus the leading bracket, for names without leading whitespace) is
`(takeWhile (· ≠ ' ')).drop 1`.
-/

/-- A grounded operator as seen by `_create_weight_dict`: only its full
parameterized name matters there. -/
structure GroundedOp where
  name : List Char
deriving DecidableEq

/-- Extraction of the generic action name: `op.name.split()[0][1:]`. -/
def extractGeneric (name : List Char) : List Char :=
  (name.takeWhile (fun c => decide (c ≠ ' '))).drop 1

/-- First-match association lookup, embedding dictionary access
(dictionary keys are unique). -/
def lookupS {α β : Type} [DecidableEq α] : α → List (α × β) → Option β
  | _, [] => none
  | x, (k, v) :: t => if x = k then some v else lookupS x t

/-- Reverse association lookup, embedding `bidict.inv` access. -/
def findByPattern {α β : Type} [DecidableEq β] : β → List (α × β) → Option α
  | _, [] => none
  | p, (k, v) :: t => if p = v then some k else findByPattern p t

/-- Embedding of `_create_weight_dict`: for every grounded operator, look
its generic action name up in the supplied weight table and record the
full name with that weight; a missing entry raises (`KeyError`), embedded
as `Except.error` carrying the missing name. -/
def createWeightDict (ops : List GroundedOp) (wd : List (List Char × ℕ)) :
    Except (List Char) (List (List Char × ℕ)) :=
  match ops with
  | [] => Except.ok []
  | op :: rest =>
    match lookupS (extractGeneric op.name) wd with
    | none => Except.error (extractGeneric op.name)
    | some w => (createWeightDict rest wd).map (fun l => (op.name, w) :: l)

/-- The surrounding pipeline of `build_weighted_add_abstraction`: the
weight dictionary is built first, and only on success does construction
(and any later search, abstracted as `rest`) proceed. -/
def buildWeightedAddAbstractionModel (ops : List GroundedOp)
    (wd : List (List Char × ℕ)) (rest : List (List Char × ℕ) → ℕ) :
    Except (List Char) ℕ :=
  (createWeightDict ops wd).map rest

theorem createWeightDict_missing {ops : List GroundedOp} {wd : List (List Char × ℕ)}
    (h : ∃ op ∈ ops, lookupS (extractGeneric op.name) wd = none) :
    ∃ e, createWeightDict ops wd = Except.error e := by
  induction ops with
  | nil =>
    rcases h with ⟨op, hop, _⟩
    exact absurd hop (by simp)
  | cons o t ih =>
    rcases h with ⟨op, hop, hnone⟩
    by_cases ho : lookupS (extractGeneric o.name) wd = none
    · exact ⟨extractGeneric o.name, by simp [createWeightDict, ho]⟩
    · have hop9 : op ∈ t := by
        rcases List.mem_cons.mp hop with h9 | h9
        · subst h9; exact absurd hnone ho
        · exact h9
      rcases ih ⟨op, hop9, hnone⟩ with ⟨e, he⟩
      obtain ⟨w, hw⟩ : ∃ w, lookupS (extractGeneric o.name) wd = some w := by
        cases hlk : lookupS (extractGeneric o.name) wd
        · exact absurd hlk ho
        · exact ⟨_, rfl⟩
      exact ⟨e, by simp [createWeightDict, hw, he, Except.map]⟩

/-- C6: if some grounded operator's generic action name is missing from
the supplied weight table, `_create_weight_dict` raises (embedded as an
`Except.error`), and the whole weighted-abstraction pipeline returns that
error before any construction or search result is produced. -/
theorem missing_weight_aborts (ops : List GroundedOp) (wd : List (List Char × ℕ))
    (h : ∃ op ∈ ops, lookupS (extractGeneric op.name) wd = none) :
    ∃ e, createWeightDict ops wd = Except.error e ∧
      ∀ rest : List (List Char × ℕ) → ℕ,
        buildWeightedAddAbstractionModel ops wd rest = Except.error e := by
  rcases createWeightDict_missing h with ⟨e, he⟩
  exact ⟨e, he, fun rest => by simp [buildWeightedAddAbstractionModel, he, Except.map]⟩

/-- Operator used by the missing-weight witness. -/
def exOp6 : GroundedOp := ⟨"(transit b0 l0 l1)".toList⟩

/-- C6, witness: a transit operator against a weight table that only
contains `grasp`. -/
theorem missing_weight_aborts_witness :
    ∃ e, createWeightDict [exOp6] [("grasp".toList, 2)] = Except.error e ∧
      ∀ rest : List (List Char × ℕ) → ℕ,
        buildWeightedAddAbstractionModel [exOp6] [("grasp".toList, 2)] rest =
          Except.error e :=
  missing_weight_aborts [exOp6] [("grasp".toList, 2)] ⟨exOp6, by decide, by decide⟩

/-!
State encoding (`_create_sym_var_map`): `boolean_str` is
`itertools.product([1, 0], repeat=num_vars)` — all bit patterns of the
pool, first coordinate varying slowest and `1` before `0` — and each
candidate state is assigned the pattern at its enumeration index.  An
index beyond `2 ^ num_vars` raises (`IndexError` from
`boolean_str[index]`, backed up by the width assertion), embedded as
`Except.error`.  The current-pool and next-pool maps are built from the
same pattern assignment (`deepcopy` plus a joint update loop), so a
state's next-pool cube is the cube of the SAME pattern over the primed
variables; a pattern's cube is its indicator function on assignments. -/

/-- All bit patterns of `n` pool variables in the order produced by
`product([1, 0], repeat=n)`. -/
def boolPatterns : ℕ → List (List Bool)
  | 0 => [[]]
  | n + 1 =>
    ((boolPatterns n).map (fun p => true :: p)) ++
      ((boolPatterns n).map (fun p => false :: p))

/-- Assignment of successive patterns to the candidate states (the
`{state: boolean_str[index]}` comprehension); running out of patterns is
the `IndexError`. -/
def assignPatterns {S : Type} : List S → List (List Bool) →
    Except (List Char) (List (S × List Bool))
  | [], _ => Except.ok []
  | _ :: _, [] => Except.error "IndexError: list index out of range".toList
  | s :: ss, p :: ps => (assignPatterns ss ps).map (fun r => (s, p) :: r)

/-- Embedding of the pattern-assignment phase of `_create_sym_var_map`. -/
def createSymVarMapModel {S : Type} (states : List S) (numVars : ℕ) :
    Except (List Char) (List (S × List Bool)) :=
  assignPatterns states (boolPatterns numVars)

/-- The cube of a bit pattern: the indicator of exactly that pool
assignment (the conjunction of positive/negative variable literals built
from the pattern). -/
def cubeOfPattern (p : List Bool) : List Bool → Bool := fun v => decide (v = p)

theorem length_boolPatterns (n : ℕ) : (boolPatterns n).length = 2 ^ n := by
  induction n with
  | zero => rfl
  | succ k ih =>
    show (((boolPatterns k).map _) ++ ((boolPatterns k).map _)).length = 2 ^ (k + 1)
    rw [List.length_append, List.length_map, List.length_map, ih, pow_succ]
    omega

theorem nodup_boolPatterns (n : ℕ) : (boolPatterns n).Nodup := by
  induction n with
  | zero => simp [boolPatterns]
  | succ k ih =>
    show (((boolPatterns k).map (fun p => true :: p)) ++
      ((boolPatterns k).map (fun p => false :: p))).Nodup
    rw [List.nodup_append]
    refine ⟨ih.map (fun a b h => by injection h), ih.map (fun a b h => by injection h), ?_⟩
    intro x hx hx9
    rcases List.mem_map.mp hx with ⟨p, _, hp⟩
    rcases List.mem_map.mp hx9 with ⟨q, _, hq⟩
    rw [← hp] at hq
    injection hq with h7 _
    exact Bool.noConfusion h7

theorem assignPatterns_error {S : Type} {ss : List S} {ps : List (List Bool)}
    (h : ps.length < ss.length) : ∃ e, assignPatterns ss ps = Except.error e := by
  induction ss generalizing ps with
  | nil => exact absurd h (by simp)
  | cons s ss9 ih =>
    cases ps with
    | nil => exact ⟨_, rfl⟩
    | cons p ps9 =>
      rcases ih (by simpa using h) with ⟨e, he⟩
      exact ⟨e, by simp [assignPatterns, he, Except.map]⟩

theorem assignPatterns_ok {S : Type} {ss : List S} {ps : List (List Bool)}
    (h : ss.length ≤ ps.length) : assignPatterns ss ps = Except.ok (ss.zip ps) := by
  induction ss generalizing ps with
  | nil => simp [assignPatterns]
  | cons s ss9 ih =>
    cases ps with
    | nil => exact absurd h (by simp)
    | cons p ps9 =>
      rw [List.zip_cons_cons]
      show (assignPatterns ss9 ps9).map _ = _
      rw [ih (by simpa using h)]
      rfl

/-- C7: discovering more candidate states than the preallocated Boolean
width can address makes the pattern assignment of `_create_sym_var_map`
fail (the `boolean_str[index]` lookup raises before the width assertion),
and the error propagates out of any downstream construction step. -/
theorem sym_var_map_overflow {S : Type} (states : List S) (numVars : ℕ)
    (h : 2 ^ numVars < states.length) :
    ∃ e, createSymVarMapModel states numVars = Except.error e ∧
      ∀ rest : List (S × List Bool) → ℕ,
        (createSymVarMapModel states numVars).map rest = Except.error e := by
  obtain ⟨e, he⟩ : ∃ e, createSymVarMapModel states numVars = Except.error e :=
    assignPatterns_error (by rw [length_boolPatterns]; exact h)
  exact ⟨e, he, fun rest => by simp [he, Except.map]⟩

/-- C7, witness: three states on a single Boolean variable. -/
theorem sym_var_map_overflow_witness :
    ∃ e, createSymVarMapModel [10, 20, 30] 1 = Except.error e ∧
      ∀ rest : List (ℕ × List Bool) → ℕ,
        (createSymVarMapModel [10, 20, 30] 1).map rest = Except.error e :=
  sym_var_map_overflow [10, 20, 30] 1 (by decide)

theorem mem_snd_zip {S P : Type} {ss : List S} {ps : List P} {x : P}
    (h : x ∈ (ss.zip ps).map Prod.snd) : x ∈ ps := by
  rcases List.mem_map.mp h with ⟨sp, hsp, hx⟩
  rw [← hx]
  exact (List.of_mem_zip hsp).2

theorem mem_fst_zip {S P : Type} {ss : List S} {ps : List P} {x : S}
    (h : x ∈ (ss.zip ps).map Prod.fst) : x ∈ ss := by
  rcases List.mem_map.mp h with ⟨sp, hsp, hx⟩
  rw [← hx]
  exact (List.of_mem_zip hsp).1

theorem nodup_snd_zip {S P : Type} {ss : List S} {ps : List P} (h : ps.Nodup) :
    ((ss.zip ps).map Prod.snd).Nodup := by
  induction ss generalizing ps with
  | nil => simp
  | cons s ss9 ih =>
    cases ps with
    | nil => simp
    | cons p ps9 =>
      rcases List.nodup_cons.mp h with ⟨hp, hps⟩
      rw [List.zip_cons_cons, List.map_cons, List.nodup_cons]
      exact ⟨fun hmem => hp (mem_snd_zip hmem), ih hps⟩

theorem nodup_fst_zip {S P : Type} {ss : List S} {ps : List P} (h : ss.Nodup) :
    ((ss.zip ps).map Prod.fst).Nodup := by
  induction ss generalizing ps with
  | nil => simp
  | cons s ss9 ih =>
    cases ps with
    | nil => simp
    | cons p ps9 =>
      rcases List.nodup_cons.mp h with ⟨hs, hss⟩
      rw [List.zip_cons_cons, List.map_cons, List.nodup_cons]
      exact ⟨fun hmem => hs (mem_fst_zip hmem), ih hss⟩

theorem mem_zip_of_mem_left {S P : Type} {ss : List S} {ps : List P} {s : S}
    (h : s ∈ ss) (hle : ss.length ≤ ps.length) : ∃ p, (s, p) ∈ ss.zip ps := by
  induction ss generalizing ps with
  | nil => exact absurd h (by simp)
  | cons a t ih =>
    cases ps with
    | nil => exact absurd hle (by simp)
    | cons p pt =>
      rcases List.mem_cons.mp h with h9 | h9
      · subst h9
        exact ⟨p, by simp⟩
      · rcases ih h9 (by simpa using hle) with ⟨q, hq⟩
        exact ⟨q, List.mem_cons_of_mem _ hq⟩

theorem lookupS_of_mem {S P : Type} [DecidableEq S] {L : List (S × P)} {sp : S × P}
    (hnd : (L.map Prod.fst).Nodup) (hm : sp ∈ L) : lookupS sp.1 L = some sp.2 := by
  induction L with
  | nil => exact absurd hm (by simp)
  | cons kv t ih =>
    rw [List.map_cons, List.nodup_cons] at hnd
    rcases List.mem_cons.mp hm with h9 | h9
    · subst h9
      show (if sp.1 = sp.1 then some sp.2 else _) = some sp.2
      rw [if_pos rfl]
    · have hne : sp.1 ≠ kv.1 := by
        intro hh
        exact hnd.1 (hh ▸ List.mem_map_of_mem Prod.fst h9)
      show (if sp.1 = kv.1 then some kv.2 else lookupS sp.1 t) = some sp.2
      rw [if_neg hne]
      exact ih hnd.2 h9

theorem findByPattern_of_mem {S P : Type} [DecidableEq P] {L : List (S × P)} {sp : S × P}
    (hnd : (L.map Prod.snd).Nodup) (hm : sp ∈ L) : findByPattern sp.2 L = some sp.1 := by
  induction L with
  | nil => exact absurd hm (by simp)
  | cons kv t ih =>
    rw [List.map_cons, List.nodup_cons] at hnd
    rcases List.mem_cons.mp hm with h9 | h9
    · subst h9
      show (if sp.2 = sp.2 then some sp.1 else _) = some sp.1
      rw [if_pos rfl]
    · have hne : sp.2 ≠ kv.2 := by
        intro hh
        exact hnd.1 (hh ▸ List.mem_map_of_mem Prod.snd h9)
      show (if sp.2 = kv.2 then some kv.1 else findByPattern sp.2 t) = some sp.1
      rw [if_neg hne]
      exact ih hnd.2 h9

/-- C4: with enough width, `_create_sym_var_map` assigns the candidate
states pairwise-distinct bit patterns (the same pattern serving the
current and the next pool), the state → pattern and pattern → state maps
are mutually inverse on the candidate set and on the image, and distinct
patterns yield distinct cubes — the encoding is a bijection between
candidate states and cubes. -/
theorem sym_var_map_bijection {S : Type} [DecidableEq S] (states : List S) (numVars : ℕ)
    (hnd : states.Nodup) (hle : states.length ≤ 2 ^ numVars) :
    createSymVarMapModel states numVars =
      Except.ok (states.zip (boolPatterns numVars))
    ∧ ((states.zip (boolPatterns numVars)).map Prod.snd).Nodup
    ∧ (∀ s ∈ states, ∃ p, lookupS s (states.zip (boolPatterns numVars)) = some p ∧
        findByPattern p (states.zip (boolPatterns numVars)) = some s)
    ∧ (∀ sp ∈ states.zip (boolPatterns numVars),
        lookupS sp.1 (states.zip (boolPatterns numVars)) = some sp.2 ∧
        findByPattern sp.2 (states.zip (boolPatterns numVars)) = some sp.1)
    ∧ (∀ sp1 ∈ states.zip (boolPatterns numVars),
        ∀ sp2 ∈ states.zip (boolPatterns numVars),
        sp1.2 ≠ sp2.2 → cubeOfPattern sp1.2 ≠ cubeOfPattern sp2.2) := by
  have hfst : ((states.zip (boolPatterns numVars)).map Prod.fst).Nodup := nodup_fst_zip hnd
  have hsnd : ((states.zip (boolPatterns numVars)).map Prod.snd).Nodup :=
    nodup_snd_zip (nodup_boolPatterns numVars)
  have hmaps : ∀ sp ∈ states.zip (boolPatterns numVars),
      lookupS sp.1 (states.zip (boolPatterns numVars)) = some sp.2 ∧
      findByPattern sp.2 (states.zip (boolPatterns numVars)) = some sp.1 :=
    fun sp hsp => ⟨lookupS_of_mem hfst hsp, findByPattern_of_mem hsnd hsp⟩
  refine ⟨assignPatterns_ok (by rw [length_boolPatterns]; exact hle), hsnd, ?_, hmaps, ?_⟩
  · intro s hs
    obtain ⟨p, hp⟩ := mem_zip_of_mem_left hs
      (by rw [length_boolPatterns]; exact hle)
    exact ⟨p, (hmaps (s, p) hp).1, (hmaps (s, p) hp).2⟩
  · intro sp1 _ sp2 _ hne heq
    have h9 := congrFun heq sp1.2
    unfold cubeOfPattern at h9
    have h7 : decide (sp1.2 = sp2.2) = true := h9.symm.trans (decide_eq_true rfl)
    exact hne (of_decide_eq_true h7)

/-- C4, witness: two candidate states over one Boolean variable. -/
theorem sym_var_map_bijection_witness :
    createSymVarMapModel [10, 20] 1 = Except.ok ([10, 20].zip (boolPatterns 1))
    ∧ (([10, 20].zip (boolPatterns 1)).map Prod.snd).Nodup
    ∧ (∀ s ∈ [10, 20], ∃ p, lookupS s ([10, 20].zip (boolPatterns 1)) = some p ∧
        findByPattern p ([10, 20].zip (boolPatterns 1)) = some s)
    ∧ (∀ sp ∈ [10, 20].zip (boolPatterns 1),
        lookupS sp.1 ([10, 20].zip (boolPatterns 1)) = some sp.2 ∧
        findByPattern sp.2 ([10, 20].zip (boolPatterns 1)) = some sp.1)
    ∧ (∀ sp1 ∈ [10, 20].zip (boolPatterns 1), ∀ sp2 ∈ [10, 20].zip (boolPatterns 1),
        sp1.2 ≠ sp2.2 → cubeOfPattern sp1.2 ≠ cubeOfPattern sp2.2) :=
  sym_var_map_bijection [10, 20] 1 (by decide) (by decide)

/-- Number of label variables allocated by `_create_symbolic_lbl_vars`:
`num = math.ceil(math.log2(n))`, bumped to `1` when it is `0`.  The
ceiling of the exact real base-2 logarithm of `n ≥ 1` is `Nat.clog 2 n`. -/
def numLblVars (n : ℕ) : ℕ :=
  if Nat.clog 2 n = 0 then Nat.clog 2 n + 1 else Nat.clog 2 n

/-- The freshly allocated label variables (their manager indices,
`_num_of_sym_vars + num_var`). -/
def createSymbolicLblVars (n base : ℕ) : List ℕ :=
  (List.range (numLblVars n)).map (fun i => base + i)

/-- C8: for a non-empty candidate pool of size `n`,
`_create_symbolic_lbl_vars` allocates exactly `max 1 ⌈log₂ n⌉` Boolean
variables: `⌈log₂ n⌉` in general and `1` when `n = 1`. -/
theorem lbl_vars_count (n base : ℕ) (h : 1 ≤ n) :
    (createSymbolicLblVars n base).length = max 1 (Nat.clog 2 n)
    ∧ (n = 1 → (createSymbolicLblVars n base).length = 1)
    ∧ (2 ≤ n → (createSymbolicLblVars n base).length = Nat.clog 2 n) := by
  have hlen : (createSymbolicLblVars n base).length = numLblVars n := by
    simp [createSymbolicLblVars]
  refine ⟨?_, ?_, ?_⟩
  · rw [hlen]
    unfold numLblVars
    rcases Nat.eq_zero_or_pos (Nat.clog 2 n) with h0 | h0
    · rw [h0]
      simp
    · rw [if_neg (by omega)]
      omega
  · intro h1
    subst h1
    rw [hlen]
    unfold numLblVars
    rw [Nat.clog_one_right]
    simp
  · intro h2
    rw [hlen]
    unfold numLblVars
    have h0 := Nat.clog_pos (b := 2) (by norm_num) h2
    rw [if_neg (by omega)]

/-- C8, witness: a single-element pool gets one variable. -/
theorem lbl_vars_count_witness :
    ((createSymbolicLblVars 1 0).length = max 1 (Nat.clog 2 1))
    ∧ (1 = 1 → (createSymbolicLblVars 1 0).length = 1)
    ∧ (2 ≤ 1 → (createSymbolicLblVars 1 0).length = Nat.clog 2 1) :=
  lbl_vars_count 1 0 (by decide)

/-- Embedding of the Franka
`_initialize_sym_init_goal_states`: the sorted initial predicate tuple is
looked up in the current-state cube map (`None` fails the assert), the
goal diagram is left `None`; the sorted goal tuple is computed but never
used. -/
def initSymInitGoalFranka {γ : Type} (mapCurr : List (FState × γ))
    (init goal : List ℕ) : Except (List Char) (Option γ × Option γ) :=
  let initTuple := canon init
  let _goalTuple := canon goal
  match lookupS initTuple mapCurr with
  | none => Except.error "Error extracting the Sym init state".toList
  | some c => Except.ok (some c, none)

/-- Embedding of the base-class goal construction
(`reduce(lambda a, b: a | b, goal cube list)` in the non-Franka
`_initialize_sym_init_goal_states`; undefined on an empty goal list). -/
def baseSymGoal {A F : Type} (m : F → WADD A) (goal : List F) : Option (WADD A) :=
  match goal.map m with
  | [] => none
  | h :: t => some (t.foldl wOr h)

theorem foldl_wOr_pos {A : Type} (l : List (WADD A)) (g : WADD A) (v : A × A) :
    0 < (l.foldl wOr g) v ↔ 0 < g v ∨ ∃ f ∈ l, 0 < f v := by
  induction l generalizing g with
  | nil => simp
  | cons h t ih =>
    rw [List.foldl_cons, ih]
    show (0 < max (g v) (h v) ∨ _) ↔ _
    constructor
    · rintro (h9 | ⟨f, hf, h9⟩)
      · rcases Nat.lt_or_ge 0 (g v) with h8 | h8
        · exact Or.inl h8
        · refine Or.inr ⟨h, by simp, ?_⟩
          omega
      · exact Or.inr ⟨f, List.mem_cons_of_mem _ hf, h9⟩
    · rintro (h9 | ⟨f, hf, h9⟩)
      · exact Or.inl (by omega)
      · rcases List.mem_cons.mp hf with h8 | h8
        · subst h8
          exact Or.inl (by omega)
        · exact Or.inr ⟨f, h8, h9⟩

/-- C10: after Franka initialisation the symbolic initial-state diagram is
the current-state cube of the sorted initial tuple (never `None`), while
the symbolic goal diagram is left `None`; the base weighted transition
system, by contrast, assigns its goal diagram the disjunction of the
goal-predicate cubes (non-zero exactly where some goal cube is). -/
theorem franka_init_goal_states {γ : Type} (mapCurr : List (FState × γ))
    (init goal : List ℕ) (c : γ)
    (h : lookupS (canon init) mapCurr = some c) :
    initSymInitGoalFranka mapCurr init goal = Except.ok (some c, none)
    ∧ (∀ (A F : Type) (m : F → WADD A) (g : F) (gs : List F) (d : WADD A),
        baseSymGoal m (g :: gs) = some d →
        ∀ v, 0 < d v ↔ ∃ f ∈ g :: gs, 0 < m f v) := by
  constructor
  · simp [initSymInitGoalFranka, h]
  · intro A F m g gs d hd v
    have hdd : d = (gs.map m).foldl wOr (m g) := by
      unfold baseSymGoal at hd
      rw [List.map_cons] at hd
      exact (Option.some.injEq _ _ ▸ hd).symm
    subst hdd
    rw [foldl_wOr_pos]
    constructor
    · rintro (h9 | ⟨f, hf, h9⟩)
      · exact ⟨g, by simp, h9⟩
      · rcases List.mem_map.mp hf with ⟨f0, hf0, hf9⟩
        exact ⟨f0, List.mem_cons_of_mem _ hf0, by rw [hf9]; exact h9⟩
    · rintro ⟨f, hf, h9⟩
      rcases List.mem_cons.mp hf with h8 | h8
      · subst h8
        exact Or.inl h9
      · exact Or.inr ⟨m f, List.mem_map_of_mem m h8, h9⟩

/-- C10, witness: a two-predicate initial tuple against a one-entry cube
map. -/
theorem franka_init_goal_states_witness :
    initSymInitGoalFranka [([1, 2], 7)] [2, 1] [3] = Except.ok (some 7, none)
    ∧ (∀ (A F : Type) (m : F → WADD A) (g : F) (gs : List F) (d : WADD A),
        baseSymGoal m (g :: gs) = some d →
        ∀ v, 0 < d v ↔ ∃ f ∈ g :: gs, 0 < m f v) :=
  franka_init_goal_states [([1, 2], 7)] [2, 1] [3] 7 (by decide)

end SymQuant
